import Mathlib

/-!
Verification of the drag/wrap/snap core of the mix-and-match character
slider (`src/components/Scene.tsx`).

The numeric model uses `ℚ` for positions and drag offsets (the source
operates on JavaScript numbers; the spec describes them as unconstrained
reals, and every constant appearing in the source is rational), and `ℝ`
for rotation angles, which involve `Math.PI`.

JavaScript's `%` operator is a truncated remainder: `x % p` is
`x - p * trunc (x / p)` where `trunc` rounds toward zero.  The wrapping
expression of the source applies `%` twice to avoid the negative-remainder
artifact; we embed it literally and prove it agrees with the flooring
remainder.
-/

namespace Scene

/-- Layout constants, `src/components/Scene.tsx` lines 54-57. -/
def CHARACTER_COUNT : ℕ := 6

/-- `const SPACING = 3.0`. -/
def SPACING : ℚ := 3

/-- `const TOTAL_WIDTH = CHARACTER_COUNT * SPACING`. -/
def TOTAL_WIDTH : ℚ := (CHARACTER_COUNT : ℚ) * SPACING

/-- `const START_X = -((CHARACTER_COUNT - 1) * SPACING) / 2`. -/
def START_X : ℚ := -(((CHARACTER_COUNT : ℚ) - 1) * SPACING) / 2

/-- Truncation toward zero, the rounding used by JavaScript's `%`. -/
def trunc (x : ℚ) : ℤ := if 0 ≤ x then ⌊x⌋ else ⌈x⌉

/-- JavaScript's remainder operator `x % p` on numbers. -/
def jsMod (x p : ℚ) : ℚ := x - p * (trunc (x / p) : ℚ)

/-- The wrapping expression of `useFrame` (line 182):
`((((pos + halfWidth) % TOTAL_WIDTH) + TOTAL_WIDTH) % TOTAL_WIDTH) - halfWidth`
with `halfWidth = p / 2` (line 170). -/
def wrap (x p : ℚ) : ℚ := jsMod (jsMod (x + p / 2) p + p) p - p / 2

/-- Slot `i`'s immutable base position `START_X + i * SPACING` (line 179). -/
def slotBase (i : ℕ) : ℚ := START_X + (i : ℚ) * SPACING

/-- Slot `i`'s wrapped world position under drag offset `d` (lines 179-182). -/
def wrappedPos (d : ℚ) (i : ℕ) : ℚ := wrap (slotBase i + d) TOTAL_WIDTH

/-- `const rotationY = (currentDrag / SPACING) * Math.PI * 2` (line 175).
Noncomputable only because it mentions the real constant `π`. -/
noncomputable def rotationY (d : ℝ) : ℝ := d / ((SPACING : ℚ) : ℝ) * Real.pi * 2

/- ### Basic facts about `trunc`, `jsMod` and `wrap` -/

theorem trunc_of_nonneg {x : ℚ} (h : 0 ≤ x) : trunc x = ⌊x⌋ := if_pos h

theorem trunc_of_neg {x : ℚ} (h : x < 0) : trunc x = ⌈x⌉ := if_neg (not_le.mpr h)

/-- On a nonnegative dividend the JavaScript remainder is the flooring
remainder, i.e. `p` times the fractional part of `x / p`. -/
theorem jsMod_of_nonneg {x p : ℚ} (hp : 0 < p) (hx : 0 ≤ x) :
    jsMod x p = p * Int.fract (x / p) := by
  have hq : 0 ≤ x / p := div_nonneg hx hp.le
  rw [jsMod, trunc_of_nonneg hq, Int.fract]
  have hpx : p * (x / p) = x := by field_simp
  rw [mul_sub, hpx]

/-- The JavaScript remainder lies strictly between `-p` and `p`. -/
theorem jsMod_bounds {x : ℚ} (p : ℚ) (hp : 0 < p) :
    -p < jsMod x p ∧ jsMod x p < p := by
  have hpx : p * (x / p) = x := by field_simp
  rcases le_or_lt 0 (x / p) with h | h
  · rw [jsMod, trunc_of_nonneg h]
    have h1 : (⌊x / p⌋ : ℚ) ≤ x / p := Int.floor_le _
    have h2 : x / p < ⌊x / p⌋ + 1 := Int.lt_floor_add_one _
    constructor
    · nlinarith
    · nlinarith
  · rw [jsMod, trunc_of_neg h]
    have h1 : x / p ≤ (⌈x / p⌉ : ℚ) := Int.le_ceil _
    have h2 : (⌈x / p⌉ : ℚ) < x / p + 1 := Int.ceil_lt_add_one _
    constructor
    · nlinarith
    · nlinarith

/-- The double-modulo idiom computes the flooring remainder of `x` by `p`. -/
theorem jsMod_jsMod_add {x : ℚ} (p : ℚ) (hp : 0 < p) :
    jsMod (jsMod x p + p) p = p * Int.fract (x / p) := by
  have hb := jsMod_bounds (x := x) p hp
  have hw : 0 ≤ jsMod x p + p := by linarith [hb.1]
  rw [jsMod_of_nonneg hp hw]
  congr 1
  rw [jsMod]
  have key : (x - p * (trunc (x / p) : ℚ) + p) / p = x / p + ((1 - trunc (x / p) : ℤ) : ℚ) := by
    push_cast
    field_simp
    ring
  rw [key, Int.fract_add_int]

/-- Closed form of the wrap expression: `p` times the fractional part of
`(x + p/2) / p`, shifted down by `p/2`. -/
theorem wrap_eq (x p : ℚ) (hp : 0 < p) :
    wrap x p = p * Int.fract ((x + p / 2) / p) - p / 2 := by
  rw [wrap, jsMod_jsMod_add p hp]

/-- `wrap x p` lies in `[-p/2, p/2)`. -/
theorem wrap_mem (x p : ℚ) (hp : 0 < p) :
    -(p / 2) ≤ wrap x p ∧ wrap x p < p / 2 := by
  rw [wrap_eq x p hp]
  have h1 : 0 ≤ Int.fract ((x + p / 2) / p) := Int.fract_nonneg _
  have h2 : Int.fract ((x + p / 2) / p) < 1 := Int.fract_lt_one _
  constructor
  · nlinarith
  · nlinarith

/-- `wrap x p` is congruent to `x` modulo `p`. -/
theorem wrap_sub_int (x p : ℚ) (hp : 0 < p) :
    ∃ k : ℤ, wrap x p = x + p * (k : ℚ) := by
  refine ⟨-⌊(x + p / 2) / p⌋, ?_⟩
  rw [wrap_eq x p hp, Int.fract]
  have hpx : p * ((x + p / 2) / p) = x + p / 2 := by field_simp; ring
  push_cast
  rw [mul_sub, hpx]
  ring

/-- Values already in `[-p/2, p/2)` are fixed points of `wrap`. -/
theorem wrap_fixed {y p : ℚ} (hp : 0 < p) (h1 : -(p / 2) ≤ y) (h2 : y < p / 2) :
    wrap y p = y := by
  rw [wrap_eq y p hp]
  have hfl : ⌊(y + p / 2) / p⌋ = 0 := by
    rw [Int.floor_eq_zero_iff]
    constructor
    · exact div_nonneg (by linarith) hp.le
    · rw [div_lt_one hp]
      linarith
  rw [Int.fract, hfl]
  push_cast
  have hpx : p * ((y + p / 2) / p) = y + p / 2 := by field_simp; ring
  rw [sub_zero, hpx]
  ring

theorem totalWidth_pos : (0 : ℚ) < TOTAL_WIDTH := by
  rw [TOTAL_WIDTH, CHARACTER_COUNT, SPACING]
  norm_num

/- ### The per-row spring/snap controller (lines 149-166) -/

/-- State of one row's spring: its current value `x` and the goal the
spring animates toward.  `useSpring(() => ({ x: 0, ... }))`, line 149. -/
structure RowCtrl where
  x : ℚ
  target : ℚ
deriving DecidableEq, Repr

/-- `const snapTarget = Math.round(currentX / SPACING) * SPACING`
(line 161).  JavaScript's `Math.round` rounds half toward `+∞`, exactly
Mathlib's `round`. -/
def snapTarget (v : ℚ) : ℚ := (round (v / SPACING) : ℚ) * SPACING

/-- The `useDrag` handler (lines 154-164): `currentX = ox / 40`; while the
pointer is down the spring jumps to `currentX` immediately, on release the
spring's goal becomes the snap target. -/
def dragHandler (down : Bool) (ox : ℚ) (s : RowCtrl) : RowCtrl :=
  let currentX := ox / 40
  if down then { x := currentX, target := currentX }
  else { s with target := snapTarget currentX }

/-- `from: () => [x.get() * 40, 0]` (line 165): a new gesture's cumulative
pixel offset starts from the spring's current value times the
sensitivity divisor. -/
def gestureStartPixels (s : RowCtrl) : ℚ := s.x * 40

/-- Modelled from the spec: the damped-spring easing performed by the
animation library (not part of this repository's sources) converges to and
then holds exactly the commanded target, so the settled offset of a row is
its spring goal. -/
def settledX (s : RowCtrl) : ℚ := s.target

/- ### Scene composition (lines 251-267): three independent rows -/

/-- The scene instantiates three `DraggableRow`s, each owning its own
spring state; nothing else is mutable. -/
structure SceneState where
  heads : RowCtrl
  torsos : RowCtrl
  legs : RowCtrl
deriving DecidableEq, Repr

/-- An update of the Heads row's controller touches only that row's
spring, as each `DraggableRow` owns its `useSpring` state privately. -/
def updateHeads (f : RowCtrl → RowCtrl) (s : SceneState) : SceneState :=
  { s with heads := f s.heads }

/-- An update of the Torsos row's controller. -/
def updateTorsos (f : RowCtrl → RowCtrl) (s : SceneState) : SceneState :=
  { s with torsos := f s.torsos }

/-- An update of the Legs row's controller. -/
def updateLegs (f : RowCtrl → RowCtrl) (s : SceneState) : SceneState :=
  { s with legs := f s.legs }

/-- What `useFrame` derives from one row's controller each frame: the six
wrapped slot positions together with the shared rotation expressed in
full turns (`rotationY` is that number times `2π`). -/
def rowLayout (r : RowCtrl) : (ℕ → ℚ) × ℚ :=
  (fun i => wrappedPos r.x i, r.x / SPACING)

/- ### Helper lemmas for the slot-cover claim -/

theorem wrappedPos_decomp (d : ℚ) (i : ℕ) :
    ∃ k : ℤ, wrappedPos d i = START_X + d + SPACING * (i : ℚ) + TOTAL_WIDTH * (k : ℚ) := by
  obtain ⟨k, hk⟩ := wrap_sub_int (slotBase i + d) TOTAL_WIDTH totalWidth_pos
  exact ⟨k, by rw [wrappedPos, hk, slotBase]; ring⟩

theorem wrappedPos_mem (d : ℚ) (i : ℕ) :
    -9 ≤ wrappedPos d i ∧ wrappedPos d i < 9 := by
  have hT : TOTAL_WIDTH = 18 := by norm_num [TOTAL_WIDTH, CHARACTER_COUNT, SPACING]
  have h := wrap_mem (slotBase i + d) TOTAL_WIDTH totalWidth_pos
  rw [wrappedPos]
  rw [hT] at h ⊢
  constructor <;> [linarith [h.1]; linarith [h.2]]

/-- The anchor of the wrapped slot set: the unique point of `[-9, -6)`
congruent to `START_X + d` modulo `SPACING`. -/
def coverAnchor (d : ℚ) : ℚ := SPACING * Int.fract ((START_X + d) / SPACING) - 9

theorem coverAnchor_mem (d : ℚ) : -9 ≤ coverAnchor d ∧ coverAnchor d < -6 := by
  have h1 : (0 : ℚ) ≤ Int.fract ((START_X + d) / SPACING) := Int.fract_nonneg _
  have h2 : Int.fract ((START_X + d) / SPACING) < 1 := Int.fract_lt_one _
  have hS : SPACING = 3 := rfl
  rw [coverAnchor]
  rw [hS] at h1 h2 ⊢
  constructor <;> nlinarith

theorem coverAnchor_congruent (d : ℚ) :
    ∃ m : ℤ, START_X + d - coverAnchor d = SPACING * (m : ℚ) := by
  refine ⟨⌊(START_X + d) / SPACING⌋ + 3, ?_⟩
  have hS : SPACING = 3 := rfl
  rw [coverAnchor, Int.fract, hS]
  push_cast
  ring

theorem wrappedPos_eq_anchor_add (d : ℚ) (i : ℕ) :
    ∃ m : ℕ, m < 6 ∧ wrappedPos d i = coverAnchor d + SPACING * (m : ℚ) := by
  obtain ⟨k, hk⟩ := wrappedPos_decomp d i
  obtain ⟨m0, hm0⟩ := coverAnchor_congruent d
  have hS : SPACING = 3 := rfl
  have hT : TOTAL_WIDTH = 18 := by norm_num [TOTAL_WIDTH, CHARACTER_COUNT, SPACING]
  rw [hS, hT] at hk
  rw [hS] at hm0
  have hb := wrappedPos_mem d i
  have ha := coverAnchor_mem d
  have hyr : wrappedPos d i - coverAnchor d
      = 3 * (((i : ℤ) + 6 * k + m0 : ℤ) : ℚ) := by
    push_cast
    linarith
  have hlow : (-1 : ℚ) < (((i : ℤ) + 6 * k + m0 : ℤ) : ℚ) := by nlinarith
  have hhigh : (((i : ℤ) + 6 * k + m0 : ℤ) : ℚ) < 6 := by nlinarith
  have hlowZ : (-1 : ℤ) < (i : ℤ) + 6 * k + m0 := by exact_mod_cast hlow
  have hhighZ : (i : ℤ) + 6 * k + m0 < 6 := by exact_mod_cast hhigh
  refine ⟨((i : ℤ) + 6 * k + m0).toNat, by omega, ?_⟩
  have hcast : ((((i : ℤ) + 6 * k + m0).toNat : ℤ) : ℚ)
      = (((i : ℤ) + 6 * k + m0 : ℤ) : ℚ) := by
    congr 1
    omega
  push_cast at hcast ⊢
  rw [hS]
  linarith [hyr, hcast]

/- ### Claim theorems -/

/-- C2: for every drag offset `d` the six wrapped slot positions are
pairwise distinct, lie in `[-9, 9)`, and form a contiguous evenly-spaced
cover of that interval with gap exactly `SPACING`: they are exactly
`r, r + 3, …, r + 15` for an anchor `r ∈ [-9, -6)`. -/
theorem wrapped_slots_distinct_and_cover (d : ℚ) :
    (CHARACTER_COUNT = 6 ∧ SPACING = 3 ∧ TOTAL_WIDTH = 18 ∧ START_X = -(15 / 2) ∧
      ∀ i : ℕ, slotBase i = -(15 / 2) + 3 * (i : ℚ)) ∧
    (∀ i j : ℕ, i < CHARACTER_COUNT → j < CHARACTER_COUNT →
      wrappedPos d i = wrappedPos d j → i = j) ∧
    (∀ i : ℕ, -9 ≤ wrappedPos d i ∧ wrappedPos d i < 9) ∧
    (∃ r : ℚ, -9 ≤ r ∧ r < -9 + SPACING ∧
      Finset.image (fun i => wrappedPos d i) (Finset.range CHARACTER_COUNT) =
      Finset.image (fun j : ℕ => r + SPACING * (j : ℚ)) (Finset.range CHARACTER_COUNT)) := by
  have hS : SPACING = 3 := rfl
  have hC : CHARACTER_COUNT = 6 := rfl
  have hT : TOTAL_WIDTH = 18 := by norm_num [TOTAL_WIDTH, CHARACTER_COUNT, SPACING]
  have hX : START_X = -(15 / 2) := by norm_num [START_X, CHARACTER_COUNT, SPACING]
  have hinj : ∀ i j : ℕ, i < CHARACTER_COUNT → j < CHARACTER_COUNT →
      wrappedPos d i = wrappedPos d j → i = j := by
    intro i j hi hj hij
    rw [hC] at hi hj
    obtain ⟨ki, hki⟩ := wrappedPos_decomp d i
    obtain ⟨kj, hkj⟩ := wrappedPos_decomp d j
    rw [hki, hkj, hS, hT] at hij
    have h2 : ((i : ℤ) + 6 * ki : ℤ) = ((j : ℤ) + 6 * kj : ℤ) := by
      have h1 : (i : ℚ) + 6 * (ki : ℚ) = (j : ℚ) + 6 * (kj : ℚ) := by linarith
      exact_mod_cast h1
    omega
  refine ⟨⟨hC, hS, hT, hX, ?_⟩, hinj, fun i => wrappedPos_mem d i, ?_⟩
  · intro i
    rw [slotBase, hX, hS]
    ring
  · refine ⟨coverAnchor d, (coverAnchor_mem d).1, ?_, ?_⟩
    · rw [hS]
      linarith [(coverAnchor_mem d).2]
    · have hsub : Finset.image (fun i => wrappedPos d i) (Finset.range CHARACTER_COUNT) ⊆
          Finset.image (fun j : ℕ => coverAnchor d + SPACING * (j : ℚ))
            (Finset.range CHARACTER_COUNT) := by
        intro y hy
        simp only [Finset.mem_image, Finset.mem_range] at hy ⊢
        obtain ⟨i, hi, rfl⟩ := hy
        obtain ⟨m, hm, hval⟩ := wrappedPos_eq_anchor_add d i
        exact ⟨m, by rw [hC]; exact hm, hval.symm⟩
      have hcardS : (Finset.image (fun i => wrappedPos d i)
          (Finset.range CHARACTER_COUNT)).card = CHARACTER_COUNT := by
        rw [Finset.card_image_of_injOn, Finset.card_range]
        intro i hi j hj hij
        exact hinj i j (Finset.mem_range.mp hi) (Finset.mem_range.mp hj) hij
      have hcardT : (Finset.image (fun j : ℕ => coverAnchor d + SPACING * (j : ℚ))
          (Finset.range CHARACTER_COUNT)).card ≤ CHARACTER_COUNT := by
        calc (Finset.image (fun j : ℕ => coverAnchor d + SPACING * (j : ℚ))
              (Finset.range CHARACTER_COUNT)).card
            ≤ (Finset.range CHARACTER_COUNT).card := Finset.card_image_le
          _ = CHARACTER_COUNT := Finset.card_range _
      exact Finset.eq_of_subset_of_card_le hsub (by rw [hcardS]; exact hcardT)

/-- C1: with period `TOTAL_WIDTH = 18`, the wrap expression returns a value
congruent to `x` modulo the period that lies in `[-period/2, period/2)`,
for every `x`, negative inputs included. -/
theorem wrap_congruent_and_bounded (x : ℚ) :
    TOTAL_WIDTH = 18 ∧
    (∃ k : ℤ, wrap x TOTAL_WIDTH = x + TOTAL_WIDTH * (k : ℚ)) ∧
    -(TOTAL_WIDTH / 2) ≤ wrap x TOTAL_WIDTH ∧
    wrap x TOTAL_WIDTH < TOTAL_WIDTH / 2 := by
  have h18 : TOTAL_WIDTH = 18 := by norm_num [TOTAL_WIDTH, CHARACTER_COUNT, SPACING]
  exact ⟨h18, wrap_sub_int x TOTAL_WIDTH totalWidth_pos,
    (wrap_mem x TOTAL_WIDTH totalWidth_pos).1, (wrap_mem x TOTAL_WIDTH totalWidth_pos).2⟩

/-- C8: the wrap expression with period `TOTAL_WIDTH = 18` is idempotent. -/
theorem wrap_idempotent (x : ℚ) :
    wrap (wrap x TOTAL_WIDTH) TOTAL_WIDTH = wrap x TOTAL_WIDTH :=
  wrap_fixed totalWidth_pos (wrap_mem x TOTAL_WIDTH totalWidth_pos).1
    (wrap_mem x TOTAL_WIDTH totalWidth_pos).2

/-- C4: the rotation is an integer multiple of a full turn `2π` exactly
when the drag offset is an integer multiple of `SPACING`. -/
theorem rotation_full_turn_iff (d : ℝ) :
    (∃ k : ℤ, rotationY d = (k : ℝ) * (2 * Real.pi)) ↔
    (∃ m : ℤ, d = (m : ℝ) * ((SPACING : ℚ) : ℝ)) := by
  have hS : ((SPACING : ℚ) : ℝ) = 3 := by norm_num [SPACING]
  have hπ : Real.pi ≠ 0 := Real.pi_ne_zero
  rw [rotationY, hS]
  constructor
  · rintro ⟨k, hk⟩
    refine ⟨k, ?_⟩
    have h3 : d / 3 * Real.pi * 2 - (k : ℝ) * (2 * Real.pi) = (d / 3 - k) * (2 * Real.pi) := by
      ring
    have h0 : (d / 3 - (k : ℝ)) * (2 * Real.pi) = 0 := by rw [← h3, hk]; ring
    have h1 : d / 3 - (k : ℝ) = 0 := by
      rcases mul_eq_zero.mp h0 with h | h
      · exact h
      · exact absurd h (by positivity)
    have h2 : d / 3 = (k : ℝ) := by linarith
    field_simp at h2
    linarith
  · rintro ⟨m, hm⟩
    exact ⟨m, by rw [hm]; ring⟩

/-- C6: shifting the drag offset by any integer number of spacings changes
the rotation by an integer multiple of a full turn `2π`. -/
theorem rotation_congruent_mod_full_turn (d : ℝ) (k : ℤ) :
    ∃ m : ℤ, rotationY (d + (k : ℝ) * ((SPACING : ℚ) : ℝ)) - rotationY d
      = (m : ℝ) * (2 * Real.pi) := by
  have hS : ((SPACING : ℚ) : ℝ) = 3 := by norm_num [SPACING]
  refine ⟨k, ?_⟩
  rw [rotationY, rotationY, hS]
  ring

/-- C5 counterexample: at drag offset `9` (three spacings) the rotation is
not `2` full turns, so the claimed scenario fails as stated. -/
theorem offset_nine_not_two_turns :
    ¬ (wrappedPos 9 0 = 3 / 2 ∧ rotationY 9 = 2 * (2 * Real.pi)) := by
  rintro ⟨-, h⟩
  have hS : ((SPACING : ℚ) : ℝ) = 3 := by norm_num [SPACING]
  rw [rotationY, hS] at h
  have hπ := Real.pi_pos
  nlinarith

/-- C5 amended: at drag offset `9` slot 0's wrapped world position is
`1.5` and the rotation is `3` full turns — still an integer multiple of a
full turn, hence visually identical to offset `0`. -/
theorem offset_nine_position_and_three_turns :
    wrappedPos 9 0 = 3 / 2 ∧ rotationY 9 = 3 * (2 * Real.pi) ∧
    (∃ k : ℤ, rotationY 9 - rotationY 0 = (k : ℝ) * (2 * Real.pi)) := by
  have hS : ((SPACING : ℚ) : ℝ) = 3 := by norm_num [SPACING]
  refine ⟨?_, ?_, ⟨3, ?_⟩⟩
  · norm_num [wrappedPos, slotBase, START_X, SPACING, CHARACTER_COUNT, TOTAL_WIDTH,
      wrap, jsMod, trunc]
  · rw [rotationY, hS]; ring
  · rw [rotationY, rotationY, hS]; ring

/-- C3: releasing the drag at offset `v` commands the spring toward
`round (v / SPACING) * SPACING`, the nearest multiple of the spacing, and
the settled offset equals that target; releasing at offset `4` yields
target `3`, not `4.5` and not `6`. -/
theorem drag_end_settles_to_nearest_multiple (s : RowCtrl) (v : ℚ) :
    settledX (dragHandler false (v * 40) s) = (round (v / SPACING) : ℚ) * SPACING ∧
    settledX (dragHandler false (4 * 40) s) = 3 ∧
    settledX (dragHandler false (4 * 40) s) ≠ 9 / 2 ∧
    settledX (dragHandler false (4 * 40) s) ≠ 6 := by
  have hgen : ∀ w : ℚ, settledX (dragHandler false (w * 40) s)
      = (round (w / SPACING) : ℚ) * SPACING := by
    intro w
    have hw : w * 40 / 40 = w := by ring
    simp [settledX, dragHandler, snapTarget, hw]
  have h4 : settledX (dragHandler false (4 * 40) s) = 3 := by
    rw [hgen 4]
    norm_num [SPACING, round_eq]
  exact ⟨hgen v, h4, by rw [h4]; norm_num, by rw [h4]; norm_num⟩

/-- C7: re-engaging the gesture samples the spring's live value `v` as the
pixel baseline `v * 40`, and the handler divides by `40`, so with no
additional pointer movement the offset stays exactly `v`; a row re-engaged
at offset `2.7` (spring still heading to a prior target `3`) continues
from `2.7`, neither `0` nor the prior target. -/
theorem reengage_baseline_round_trip (s : RowCtrl) :
    (dragHandler true (gestureStartPixels s) s).x = s.x ∧
    (dragHandler true (gestureStartPixels ⟨27 / 10, 3⟩) ⟨27 / 10, 3⟩).x = 27 / 10 ∧
    (dragHandler true (gestureStartPixels ⟨27 / 10, 3⟩) ⟨27 / 10, 3⟩).x ≠ 0 ∧
    (dragHandler true (gestureStartPixels ⟨27 / 10, 3⟩) ⟨27 / 10, 3⟩).x ≠ 3 := by
  have hgen : ∀ t : RowCtrl, (dragHandler true (gestureStartPixels t) t).x = t.x := by
    intro t
    have ht : t.x * 40 / 40 = t.x := by ring
    simp [dragHandler, gestureStartPixels, ht]
  refine ⟨hgen s, ?_, ?_, ?_⟩
  · rw [hgen ⟨27 / 10, 3⟩]
  · rw [hgen ⟨27 / 10, 3⟩]; norm_num
  · rw [hgen ⟨27 / 10, 3⟩]; norm_num

/-- C9: each row's controller is private to that row, so any update of one
row's spring — drag events or settling alike — leaves the other two rows'
controllers, and hence their slot positions and rotation, unchanged. -/
theorem rows_independent (f : RowCtrl → RowCtrl) (s : SceneState) :
    ((updateHeads f s).torsos = s.torsos ∧ (updateHeads f s).legs = s.legs ∧
      rowLayout (updateHeads f s).torsos = rowLayout s.torsos ∧
      rowLayout (updateHeads f s).legs = rowLayout s.legs) ∧
    ((updateTorsos f s).heads = s.heads ∧ (updateTorsos f s).legs = s.legs ∧
      rowLayout (updateTorsos f s).heads = rowLayout s.heads ∧
      rowLayout (updateTorsos f s).legs = rowLayout s.legs) ∧
    ((updateLegs f s).heads = s.heads ∧ (updateLegs f s).torsos = s.torsos ∧
      rowLayout (updateLegs f s).heads = rowLayout s.heads ∧
      rowLayout (updateLegs f s).torsos = rowLayout s.torsos) := by
  refine ⟨⟨rfl, rfl, rfl, rfl⟩, ⟨rfl, rfl, rfl, rfl⟩, ⟨rfl, rfl, rfl, rfl⟩⟩

/-- C10: the snap target is within `SPACING / 2 = 1.5` of the release
offset, and an offset exactly halfway between two multiples of `SPACING`
snaps to the larger (more positive) one, because `Math.round` rounds
halves toward `+∞`. -/
theorem snap_target_within_half_spacing (v : ℚ) :
    |snapTarget v - v| ≤ SPACING / 2 ∧
    (∀ n : ℤ, v = SPACING * (n : ℚ) + SPACING / 2 →
      snapTarget v = SPACING * ((n : ℚ) + 1)) := by
  have hS : SPACING = 3 := rfl
  constructor
  · have h := abs_sub_round (v / SPACING)
    have h3 : snapTarget v - v = ((round (v / SPACING) : ℚ) - v / SPACING) * SPACING := by
      rw [snapTarget, hS]; ring
    rw [h3, abs_mul, abs_sub_comm]
    rw [hS] at *
    have : |(3 : ℚ)| = 3 := by norm_num
    rw [this]
    linarith
  · intro n hv
    have hq : v / SPACING = (n : ℚ) + 1 / 2 := by
      rw [hv, hS]; ring
    have hr : round (v / SPACING) = n + 1 := by
      rw [hq, round_eq]
      have : (n : ℚ) + 1 / 2 + 1 / 2 = ((n + 1 : ℤ) : ℚ) := by push_cast; ring
      rw [this, Int.floor_intCast]
    rw [snapTarget, hr]
    push_cast
    ring

/-- Witness for C2 at drag offset `0`, instantiating the distinctness
implication at slots `0` and `0`. -/
theorem wrapped_slots_distinct_and_cover_witness :
    (0 : ℕ) < CHARACTER_COUNT ∧ (0 : ℕ) = 0 :=
  ⟨by decide, (wrapped_slots_distinct_and_cover 0).2.1 0 0 (by decide) (by decide) rfl⟩

/-- Witness for C10 at release offset `1.5`, exactly halfway between the
multiples `0` and `3` of the spacing: the snap target is `3`. -/
theorem snap_target_within_half_spacing_witness :
    |snapTarget (3 / 2) - 3 / 2| ≤ SPACING / 2 ∧
    snapTarget (3 / 2) = SPACING * (((0 : ℤ) : ℚ) + 1) :=
  ⟨(snap_target_within_half_spacing (3 / 2)).1,
   (snap_target_within_half_spacing (3 / 2)).2 0 (by simp [SPACING])⟩

end Scene
